import Mathlib

/-!
# Verification of the flanelly dataflow-analysis pipeline

Shallow embedding of the Rust sources (`src/ast.rs`, `src/aexp.rs`,
`src/bexp.rs`, `src/interpreter.rs`, `src/cfg.rs`, `src/parser.rs`,
`src/flow_analysis/{common,mfp,const_prop,avail_exp}.rs`) and proofs about
the embedded definitions.

Modelling conventions:
* `i32` is modelled as `Int` together with explicit two's-complement
  wraparound (`wrap32`) on the arithmetic operations; this is the behaviour
  of Rust's release-profile `+`/`*` on `i32`.  Both the interpreter and the
  constant-propagation lattice of the source use the very same operators.
* Rust `HashMap<VarName, T>` values (with a default) are modelled
  extensionally as `VarName → Option T` plus the default; `HashMap`
  equality is key-value-set equality, which coincides with extensional
  equality of the modelling function.
* Rust `HashSet<AExp>` is modelled as `Finset AExp` (set semantics; the
  iteration order of a `HashSet` is never observable in the modelled code,
  all uses are inserts, unions, intersections, retains and set equality).
* Divergence of the interpreter is modelled with a fuel parameter: a call
  returns `none` exactly when the Rust original would still be running
  after `fuel` unrollings of a `while` loop.
-/

/-- `src/common.rs`: `struct VarName(String)`; equality is by string. -/
abbrev VarName := String

/-- `src/aexp.rs`: arithmetic expressions. `Num` holds an `i32`. -/
inductive AExp where
  | Num : Int → AExp
  | Var : VarName → AExp
  | Add : AExp → AExp → AExp
  | Mul : AExp → AExp → AExp
deriving DecidableEq, Repr

/-- `src/bexp.rs`: boolean expressions. -/
inductive BExp where
  | LessEq : AExp → AExp → BExp
  | Neg : BExp → BExp
  | And : BExp → BExp → BExp
  | Or : BExp → BExp → BExp
deriving DecidableEq, Repr

/-- `src/ast.rs`: atomic statements.  `Prog` in the source is a wrapper
`Prog::Prog(Vec<ProgAtom>)` around the atom list; we model a program
directly as the atom list. -/
inductive ProgAtom where
  | skip : ProgAtom
  | assign : VarName → AExp → ProgAtom
  | cond : BExp → List ProgAtom → List ProgAtom → ProgAtom
  | whileS : BExp → List ProgAtom → ProgAtom
deriving Repr

/-- `src/ast.rs`: `Prog::Prog(Vec<ProgAtom>)`. -/
abbrev Prog := List ProgAtom

/-- Two's-complement wraparound into the `i32` range. -/
def wrap32 (z : Int) : Int := (z + 2 ^ 31) % 2 ^ 32 - 2 ^ 31

/-- `i32` addition (wrapping, as in a Rust release build). -/
def i32_add (a b : Int) : Int := wrap32 (a + b)

/-- `i32` multiplication (wrapping, as in a Rust release build). -/
def i32_mul (a b : Int) : Int := wrap32 (a * b)

/-- `src/aexp.rs` `AExp::contains_var`: `true` iff variable `x` occurs in
the expression. -/
def AExp.contains_var (a : AExp) (x : VarName) : Bool :=
  match a with
  | .Num _ => false
  | .Var name => x = name
  | .Add l r => l.contains_var x || r.contains_var x
  | .Mul l r => l.contains_var x || r.contains_var x

/-- `src/aexp.rs` `AExp::sub_aexps`: the set containing the expression and,
recursively, the subexpression sets of its children. -/
def AExp.sub_aexps (a : AExp) : Finset AExp :=
  match a with
  | .Num _ => {a}
  | .Var _ => {a}
  | .Add a1 a2 => insert a (a1.sub_aexps ∪ a2.sub_aexps)
  | .Mul a1 a2 => insert a (a1.sub_aexps ∪ a2.sub_aexps)

/-- `src/bexp.rs` `BExp::sub_aexps`: arithmetic subexpressions of a boolean
expression. -/
def BExp.sub_aexps (b : BExp) : Finset AExp :=
  match b with
  | .LessEq a1 a2 => a1.sub_aexps ∪ a2.sub_aexps
  | .Neg b1 => b1.sub_aexps
  | .And b1 b2 => b1.sub_aexps ∪ b2.sub_aexps
  | .Or b1 b2 => b1.sub_aexps ∪ b2.sub_aexps

/-!
## Interpreter (`src/interpreter.rs`)
-/

/-- `MemConfig`: a `HashMap<VarName, i32>` whose `lookup` defaults to `0`;
modelled extensionally as the total lookup function. -/
abbrev MemConfig := VarName → Int

/-- `MemConfig::new()`: empty map, every lookup yields `0`. -/
def MemConfig.new : MemConfig := fun _ => 0

/-- `MemConfig::assign`. -/
def MemConfig.assign (m : MemConfig) (x : VarName) (n : Int) : MemConfig :=
  fun v => if v = x then n else m v

/-- `eval_aexp` of the interpreter (total; `i32` arithmetic). -/
def eval_aexp (a : AExp) (mem : MemConfig) : Int :=
  match a with
  | .Num n => n
  | .Var x => mem x
  | .Add a1 a2 => i32_add (eval_aexp a1 mem) (eval_aexp a2 mem)
  | .Mul a1 a2 => i32_mul (eval_aexp a1 mem) (eval_aexp a2 mem)

/-- `eval_bexp` of the interpreter (total). -/
def eval_bexp (b : BExp) (mem : MemConfig) : Bool :=
  match b with
  | .LessEq a1 a2 => eval_aexp a1 mem ≤ eval_aexp a2 mem
  | .Or b1 b2 => eval_bexp b1 mem || eval_bexp b2 mem
  | .And b1 b2 => eval_bexp b1 mem && eval_bexp b2 mem
  | .Neg b1 => !eval_bexp b1 mem

mutual
/-- `eval_prog`: fold the atoms over the memory.  `fuel` bounds the number
of `while`-loop unrollings; `none` models divergence beyond the bound. -/
def eval_prog (fuel : Nat) (p : List ProgAtom) (mem : MemConfig) :
    Option MemConfig :=
  match p with
  | [] => some mem
  | a :: ps =>
    match eval_prog_atom fuel a mem with
    | none => none
    | some mem' => eval_prog fuel ps mem'
termination_by (fuel, sizeOf p)

/-- `eval_prog_atom`.  The `While` arm mirrors
`while eval_bexp(b, &mem) { mem = eval_prog(p, mem) }`. -/
def eval_prog_atom (fuel : Nat) (a : ProgAtom) (mem : MemConfig) :
    Option MemConfig :=
  match a with
  | .skip => some mem
  | .assign x e => some (mem.assign x (eval_aexp e mem))
  | .cond b p1 p2 =>
    if eval_bexp b mem then eval_prog fuel p1 mem else eval_prog fuel p2 mem
  | .whileS b p =>
    if eval_bexp b mem then
      match fuel with
      | 0 => none
      | f + 1 =>
        match eval_prog (f + 1) p mem with
        | none => none
        | some mem' => eval_prog_atom f (.whileS b p) mem'
    else some mem
termination_by (fuel, sizeOf a)
end

/-- `eval(p, input)`: install `x = input` in a fresh memory, run `p`, read
`z` from the final memory. -/
def eval (fuel : Nat) (p : Prog) (input : Int) : Option Int :=
  let mem := MemConfig.new.assign "x" input
  (eval_prog fuel p mem).map (fun m => m "z")

/-!
## Constant propagation (`src/flow_analysis/const_prop.rs`)
-/

/-- `ConstLat`: the flat constant lattice `Bot ≤ Const n ≤ Top`. -/
inductive ConstLat where
  | Top : ConstLat
  | Const : Int → ConstLat
  | Bot : ConstLat
deriving DecidableEq, Repr

/-- `ConstLat::join_bin` (match arms in source order). -/
def ConstLat.join_bin : ConstLat → ConstLat → ConstLat
  | .Top, _ => .Top
  | _, .Top => .Top
  | .Bot, x => x
  | x, .Bot => x
  | x, y => if x = y then x else .Top

/-- `ConstLat::eval_bin_op`. -/
def ConstLat.eval_bin_op (x : ConstLat) (f : Int → Int → Int) (y : ConstLat) :
    ConstLat :=
  match x, y with
  | .Const v1, .Const v2 => .Const (f v1 v2)
  | .Top, _ => .Top
  | _, .Top => .Top
  | _, _ => .Bot

/-- `MultiConstLat`: a `HashMap<VarName, ConstLat>` plus a `default` for
unmapped names.  The map is modelled extensionally; `map v = none` models
"key `v` absent". -/
structure MultiConstLat where
  map : VarName → Option ConstLat
  default : ConstLat

/-- `MultiConstLat::lookup`. -/
def MultiConstLat.lookup (r : MultiConstLat) (x : VarName) : ConstLat :=
  match r.map x with
  | some v => v
  | none => r.default

/-- `MultiConstLat::insert`. -/
def MultiConstLat.insert (r : MultiConstLat) (x : VarName) (v : ConstLat) :
    MultiConstLat :=
  ⟨fun y => if y = x then some v else r.map y, r.default⟩

/-- `MultiConstLat::eval_aexp`: abstract evaluation of an arithmetic
expression; `Add`/`Mul` use the same `i32` operators as the interpreter. -/
def MultiConstLat.eval_aexp (r : MultiConstLat) : AExp → ConstLat
  | .Num n => .Const n
  | .Var v => r.lookup v
  | .Add a1 a2 => (r.eval_aexp a1).eval_bin_op i32_add (r.eval_aexp a2)
  | .Mul a1 a2 => (r.eval_aexp a1).eval_bin_op i32_mul (r.eval_aexp a2)

/-- `MultiConstLat::join_bin`, exactly as in the source: phase 1 inserts,
for every key `x` of `self.map`, the value `v1.join_bin(other.lookup(x))`;
then, for every key `x` of `other.map` *not* present in `self.map`, it
inserts `v2.join_bin(other.lookup(x))` (note: the source joins `v2` with
`other`'s own lookup, i.e. with `v2` itself, not with `self`'s default).
Phase 2 joins the defaults. -/
def MultiConstLat.join_bin (r1 r2 : MultiConstLat) : MultiConstLat :=
  { map := fun x =>
      match r1.map x with
      | some v1 => some (v1.join_bin (r2.lookup x))
      | none =>
        match r2.map x with
        | some v2 => some (v2.join_bin (r2.lookup x))
        | none => none
    default := r1.default.join_bin r2.default }

/-- `<MultiConstLat as FlowSemantics>::init_start()`: default `Const 0`,
with `x ↦ Top`. -/
def MultiConstLat.init_start : MultiConstLat :=
  (MultiConstLat.mk (fun _ => none) (.Const 0)).insert "x" .Top

/-- `<MultiConstLat as FlowSemantics>::init()`: empty map, default `Bot`. -/
def MultiConstLat.init : MultiConstLat :=
  ⟨fun _ => none, .Bot⟩

/-- Concrete environments for refuting commutativity of
`MultiConstLat::join_bin` (claim C3): `cexR1` has an empty map and default
`Const 0`; `cexR2` maps `y ↦ Const 1` with default `Const 0`. -/
def cexR1 : MultiConstLat := ⟨fun _ => none, .Const 0⟩

/-- Second environment of the C3 counterexample; see `cexR1`. -/
def cexR2 : MultiConstLat :=
  ⟨fun v => if v = "y" then some (.Const 1) else none, .Const 0⟩

/-!
## CFG (`src/cfg.rs`)

A petgraph `Graph` with node weights `AnnotNode<A>` and edge weights
`Edge` is modelled as the list of node payloads (the position in the list
is the petgraph node index: `add_node` hands out indices `0, 1, 2, …` in
creation order) together with the list of edges `(source, target, label)`
in insertion order.  During lowering the annotation is the empty
`RawAnnot {}`, so it is omitted; the solver's annotations are modelled as
a separate map from node index to `MfpAnnot`.
-/

/-- `src/cfg.rs` `enum Node`. -/
inductive Node where
  | Init : Node
  | Terminal : Node
  | Skip : Node
  | Assign : VarName → AExp → Node
  | Branch : BExp → Node
deriving DecidableEq, Repr

/-- `src/cfg.rs` `enum Edge`: edge labels. -/
inductive Edge where
  | Plain : Edge
  | True : Edge
  | False : Edge
deriving DecidableEq, Repr

/-- `src/cfg.rs` `struct Cfg`: node payloads in index order, edges
`(source, target, label)` in insertion order, and the entry index. -/
structure Cfg where
  nodes : List Node
  edges : List (Nat × Nat × Edge)
  init : Nat
deriving DecidableEq, Repr

/-- `src/cfg.rs` `struct UntargEdge`: a loose end `(source, label)`. -/
abbrev UntargEdge := Nat × Edge

/-- Wire every loose end `(u, ℓ)` to target `t` as edge `u → t` labelled
`ℓ` (the repeated `cfg.graph.add_edge(t, s, e)` loops of `src/cfg.rs`). -/
def cfg_wire (g : Cfg) (ues : List UntargEdge) (t : Nat) : Cfg :=
  ⟨g.nodes, g.edges ++ ues.map (fun ue => (ue.1, t, ue.2)), g.init⟩

mutual
/-- `src/cfg.rs` `ast_atom_to_cfg_extend`: lower one atom, taking and
returning loose ends.  Each arm first `add_node`s (fresh index
`g.nodes.length`), then wires the incoming loose ends. -/
def ast_atom_to_cfg_extend (g : Cfg) (ues : List UntargEdge) :
    ProgAtom → Cfg × List UntargEdge
  | .skip =>
    let s := g.nodes.length
    (cfg_wire ⟨g.nodes ++ [Node.Skip], g.edges, g.init⟩ ues s,
     [(s, Edge.Plain)])
  | .assign v a =>
    let s := g.nodes.length
    (cfg_wire ⟨g.nodes ++ [Node.Assign v a], g.edges, g.init⟩ ues s,
     [(s, Edge.Plain)])
  | .cond b p_tt p_ff =>
    let s := g.nodes.length
    let g1 := cfg_wire ⟨g.nodes ++ [Node.Branch b], g.edges, g.init⟩ ues s
    let r_tt := ast_to_cfg_extend g1 [(s, Edge.True)] p_tt
    let r_ff := ast_to_cfg_extend r_tt.1 [(s, Edge.False)] p_ff
    (r_ff.1, r_tt.2 ++ r_ff.2)
  | .whileS b p =>
    let s := g.nodes.length
    let g1 := cfg_wire ⟨g.nodes ++ [Node.Branch b], g.edges, g.init⟩ ues s
    let r := ast_to_cfg_extend g1 [(s, Edge.True)] p
    (cfg_wire r.1 r.2 s, [(s, Edge.False)])
termination_by a => sizeOf a

/-- `src/cfg.rs` `ast_to_cfg_extend`: thread the loose ends through the
atom sequence left to right. -/
def ast_to_cfg_extend (g : Cfg) (ues : List UntargEdge) :
    List ProgAtom → Cfg × List UntargEdge
  | [] => (g, ues)
  | a :: ps =>
    let r := ast_atom_to_cfg_extend g ues a
    ast_to_cfg_extend r.1 r.2 ps
termination_by ps => sizeOf ps
end

/-- The graph and loose ends after lowering the outermost program from the
fresh CFG `⟨[Init], [], 0⟩` with the single loose end `(Init, Plain)`
(first half of `ast_to_cfg`). -/
def lower_raw (p : Prog) : Cfg × List UntargEdge :=
  ast_to_cfg_extend ⟨[Node.Init], [], 0⟩ [(0, Edge.Plain)] p

/-- The loose ends with a non-`Plain` label remaining after lowering the
outermost program (the `terminals_relevant` filter of `ast_to_cfg`). -/
def relevant_ends (p : Prog) : List UntargEdge :=
  (lower_raw p).2.filter (fun ue => ue.2 != Edge.Plain)

/-- `src/cfg.rs` `ast_to_cfg`: lower the program, then, if any non-`Plain`
loose end remains, add one `Terminal` node and wire those ends to it. -/
def ast_to_cfg (p : Prog) : Cfg :=
  let r := lower_raw p
  match relevant_ends p with
  | [] => r.1
  | rel@(_ :: _) =>
    cfg_wire ⟨r.1.nodes ++ [Node.Terminal], r.1.edges, r.1.init⟩ rel
      r.1.nodes.length

/-- `Cfg::predecessors`: sources of the incoming edges of `n`.  petgraph's
`neighbors_directed(n, Incoming)` walks the incoming edges most recently
added first, hence the `reverse`. -/
def cfg_predecessors (g : Cfg) (n : Nat) : List Nat :=
  ((g.edges.filter (fun e => e.2.1 == n)).map (fun e => e.1)).reverse

/-- `Cfg::successors`: targets of the outgoing edges of `n` (most recently
added first, as with `cfg_predecessors`). -/
def cfg_successors (g : Cfg) (n : Nat) : List Nat :=
  ((g.edges.filter (fun e => e.1 == n)).map (fun e => e.2.1)).reverse

/-!
## Lattice framework and MFP solver (`src/flow_analysis/common.rs`,
`src/flow_analysis/mfp.rs`)
-/

/-- The operations a lattice/transfer instance provides: `join_bin` from
the `SemiLat` trait and `eval_transfer_function`/`init`/`init_start` from
the `FlowSemantics` trait.  No laws are bundled: the Rust traits state
none, and the solver is callable with any instance. -/
structure FlowOps (L : Type) where
  join_bin : L → L → L
  transfer : Node → L → L
  init : L
  init_start : L

/-- `SemiLat::join` over a non-empty vector: the source folds `join_bin`
over the *whole* vector starting from its first element (so the head is
joined twice — harmless for idempotent joins). -/
def semilat_join {L : Type} (ops : FlowOps L) (hd : L) (all : List L) : L :=
  all.foldl ops.join_bin hd

/-- `struct MfpAnnot<L>`: a pre- and a post-value. -/
structure MfpAnnot (L : Type) where
  pre : L
  post : L
deriving DecidableEq, Repr

/-- The annotation map set up at the start of `mfp`: every node gets
`(init, init)`, then the entry node is overwritten with
`(init_start, init_start)`. -/
def mfp_init_annots {L : Type} (ops : FlowOps L) (g : Cfg) :
    Nat → MfpAnnot L :=
  fun i => if i = g.init then ⟨ops.init_start, ops.init_start⟩
           else ⟨ops.init, ops.init⟩

/-- One iteration of the `mfp` worklist loop body on node `n`:
recompute `pre(n)` as the join of the predecessors' posts, apply the
transfer function, and update `post(n)` when it changed.

`none` models the `unwrap` panic in `cfg.predecessors(n).unwrap()` (no
predecessor) and an out-of-range index; neither occurs on lowered CFGs.

When `post(n)` changes the source executes
`worklist.union(&HashSet::from_iter(cfg.successors(n)))`; Rust's
`HashSet::union` returns a lazy iterator over the union and does *not*
modify the receiver, and the returned iterator is dropped, so the
worklist is left unchanged — no successor is ever re-added. -/
def mfp_visit {L : Type} [DecidableEq L] (ops : FlowOps L) (g : Cfg)
    (ann : Nat → MfpAnnot L) (n : Nat) : Option (Nat → MfpAnnot L) :=
  match g.nodes.get? n with
  | none => none
  | some nd =>
    match cfg_predecessors g n with
    | [] => none
    | p :: ps =>
      let posts := ((p :: ps).map (fun m => (ann m).post))
      let new_pre := semilat_join ops ((ann p).post) posts
      let f_in := ops.transfer nd new_pre
      if f_in ≠ (ann n).post then
        some (fun i => if i = n then ⟨new_pre, f_in⟩ else ann i)
      else
        some (fun i => if i = n then ⟨new_pre, (ann n).post⟩ else ann i)

/-- The `while !worklist.is_empty()` loop of `mfp`.  The initial worklist
is the set of all node indices except the entry; `order` is the sequence
in which the `HashSet` yields them (arbitrary).  Because the worklist is
never re-populated (see `mfp_visit`), the loop is exactly one pass over
`order`.  Returns the list of nodes actually processed together with the
final annotation map (`none` models a panic inside a visit). -/
def mfp_run {L : Type} [DecidableEq L] (ops : FlowOps L) (g : Cfg) :
    List Nat → (Nat → MfpAnnot L) → List Nat × Option (Nat → MfpAnnot L)
  | [], ann => ([], some ann)
  | n :: rest, ann =>
    match mfp_visit ops g ann n with
    | none => ([n], none)
    | some ann' =>
      let r := mfp_run ops g rest ann'
      (n :: r.1, r.2)

/-- `mfp`: initialize the annotations, then run the worklist loop over
`order`, the enumeration of the initial worklist (all nodes but the
entry). -/
def mfp {L : Type} [DecidableEq L] (ops : FlowOps L) (g : Cfg)
    (order : List Nat) : List Nat × Option (Nat → MfpAnnot L) :=
  mfp_run ops g order (mfp_init_annots ops g)

/-- The initial worklist content: all node indices except the entry
(`cfg.graph.node_indices()` minus `cfg.init`). -/
def mfp_worklist (g : Cfg) : List Nat :=
  (List.range g.nodes.length).filter (fun i => i != g.init)

/-!
## Available expressions (`src/flow_analysis/avail_exp.rs`)
-/

/-- `ExpSetLat`: a `HashSet<AExp>` (modelled as `Finset AExp`). -/
abbrev ExpSetLat := Finset AExp

/-- `ExpSetLat::clear_var`: retain only expressions not containing `x`. -/
def ExpSetLat.clear_var (s : ExpSetLat) (x : VarName) : ExpSetLat :=
  s.filter (fun a => a.contains_var x = false)

/-- `ExpSetLat::extend`: insert every expression of `t`. -/
def ExpSetLat.extend (s : ExpSetLat) (t : Finset AExp) : ExpSetLat := s ∪ t

/-- `<ExpSetLat as SemiLat>::join_bin`: set intersection. -/
def ExpSetLat.join_bin (s t : ExpSetLat) : ExpSetLat := s ∩ t

/-- `<ExpSetLat as FlowSemantics>::eval_transfer_function`: the source body
is the marker comment `//TODO()` followed by `set.clone()` — the identity
on the incoming set, for every node kind. -/
def ExpSetLat.eval_transfer_function (n : Node) (s : ExpSetLat) : ExpSetLat :=
  s

/-- `<ExpSetLat as FlowSemantics>::init()`: the empty set. -/
def ExpSetLat.init : ExpSetLat := ∅

/-- `<ExpSetLat as FlowSemantics>::init_start()`: `Self::init()`. -/
def ExpSetLat.init_start : ExpSetLat := ExpSetLat.init

/-- The available-expressions instantiation of the solver's operations. -/
def avail_ops : FlowOps ExpSetLat :=
  ⟨ExpSetLat.join_bin, ExpSetLat.eval_transfer_function, ExpSetLat.init,
   ExpSetLat.init_start⟩

mutual
/-- Modelled from the spec: the arithmetic subexpressions occurring
anywhere in one program atom ("the universal set of arithmetic
subexpressions occurring anywhere in the program", §4.5); no seeding code
exists in the source, so this set is defined from the spec's words for
comparison. -/
def prog_atom_sub_aexps_spec : ProgAtom → Finset AExp
  | .skip => ∅
  | .assign _ a => a.sub_aexps
  | .cond b p1 p2 =>
    b.sub_aexps ∪ prog_sub_aexps_spec p1 ∪ prog_sub_aexps_spec p2
  | .whileS b p => b.sub_aexps ∪ prog_sub_aexps_spec p
termination_by a => sizeOf a

/-- Modelled from the spec: the universal set of arithmetic
subexpressions occurring anywhere in a program; see
`prog_atom_sub_aexps_spec`. -/
def prog_sub_aexps_spec : List ProgAtom → Finset AExp
  | [] => ∅
  | a :: ps => prog_atom_sub_aexps_spec a ∪ prog_sub_aexps_spec ps
termination_by ps => sizeOf ps
end

/-!
## Concrete inputs used by the theorems
-/

/-- The expression `x + 1`. -/
def x_plus_1 : AExp := .Add (.Var "x") (.Num 1)

/-- The program `z := x + 1` (spec §8, scenario 2). -/
def prog_incr : Prog := [.assign "z" x_plus_1]

/-- The program `while 1 <= 1 do skip end` (spec §8, scenario 6). -/
def prog_loop : Prog := [.whileS (.LessEq (.Num 1) (.Num 1)) [.skip]]

/-- The program `y := x * x; while y <= 10 do y := y + 1 end`
(spec §8, scenario 5). -/
def prog_sq_loop : Prog :=
  [.assign "y" (.Mul (.Var "x") (.Var "x")),
   .whileS (.LessEq (.Var "y") (.Num 10)) [.assign "y" (.Add (.Var "y") (.Num 1))]]

/-- A two-point lattice instance satisfying every framework law:
carrier `Bool`, `join_bin = or` (associative, commutative, idempotent,
finite chains), `init = false` (bottom), `init_start = true`, and the
identity transfer function (monotone). -/
def or_lat_ops : FlowOps Bool := ⟨or, fun _ x => x, false, true⟩

/-!
## Theorems
-/

/-- C1 (counter-evidence): on the lowered CFG of
`while 1 <= 1 do skip end` and the lawful two-point lattice `or_lat_ops`
(join `∨` is associative, commutative and idempotent; the transfer
function is the identity, hence monotone; chains are finite), running the
solver with the legitimate worklist enumeration `[2, 1, 3]` yields
`pre(2) = false` although node 2's only predecessor is node 1 with
`post(1) = true`: the fixed-point equation
`pre(n) = JOIN{post(p) | p ∈ preds(n)}` is violated, because
`worklist.union(…)` never re-adds node 2 after `post(1)` changes. -/
theorem mfp_fixed_point_violation :
    (∀ x y z : Bool, or_lat_ops.join_bin (or_lat_ops.join_bin x y) z =
        or_lat_ops.join_bin x (or_lat_ops.join_bin y z)) ∧
    (∀ x y : Bool, or_lat_ops.join_bin x y = or_lat_ops.join_bin y x) ∧
    (∀ x : Bool, or_lat_ops.join_bin x x = x) ∧
    (∀ (nd : Node) (x : Bool), or_lat_ops.transfer nd x = x) ∧
    mfp_worklist (ast_to_cfg prog_loop) = [1, 2, 3] ∧
    ([2, 1, 3] : List Nat).Perm (mfp_worklist (ast_to_cfg prog_loop)) ∧
    cfg_predecessors (ast_to_cfg prog_loop) 2 = [1] ∧
    ((mfp or_lat_ops (ast_to_cfg prog_loop) [2, 1, 3]).2.map
        (fun a => ((a 2).pre, (a 1).post))) = some (false, true) ∧
    semilat_join or_lat_ops true [true] = true := by
  have hcfg : ast_to_cfg prog_loop =
      ⟨[Node.Init, Node.Branch (.LessEq (.Num 1) (.Num 1)), Node.Skip,
        Node.Terminal],
       [(0, 1, Edge.Plain), (1, 2, Edge.True), (2, 1, Edge.Plain),
        (1, 3, Edge.False)], 0⟩ := by
    simp [ast_to_cfg, lower_raw, relevant_ends, ast_to_cfg_extend,
      ast_atom_to_cfg_extend, cfg_wire, prog_loop]
  rw [hcfg]
  refine ⟨by decide, by decide, by decide, fun nd x => rfl, by decide,
    by decide, by decide, by decide, by decide⟩

/-- C2 (counter-evidence): `ExpSetLat::eval_transfer_function` is an
unfinished `//TODO()` stub that returns the incoming set unchanged for
every node kind.  Transferring `x := x+1` over the incoming set `{x+1}`
leaves `x+1` in the result (the claim says it never survives), and
transferring `Branch(x <= 1)` over `∅` generates nothing although `x` is
a subexpression of the guard.  The last conjunct records what the claimed
generate-then-kill transfer would produce instead on `x := x+1`. -/
theorem avail_transfer_is_stub :
    ExpSetLat.eval_transfer_function (Node.Assign "x" x_plus_1) {x_plus_1} =
      {x_plus_1} ∧
    x_plus_1 ∈
      ExpSetLat.eval_transfer_function (Node.Assign "x" x_plus_1) {x_plus_1} ∧
    ExpSetLat.eval_transfer_function
      (Node.Branch (.LessEq (.Var "x") (.Num 1))) ∅ = ∅ ∧
    AExp.Var "x" ∈ BExp.sub_aexps (.LessEq (.Var "x") (.Num 1)) ∧
    ExpSetLat.clear_var (ExpSetLat.extend {x_plus_1} x_plus_1.sub_aexps) "x" =
      {AExp.Num 1} := by
  refine ⟨by decide, by decide, by decide, by decide, by decide⟩

/-- C3 (counter-evidence): `MultiConstLat::join_bin` is not commutative.
With `r1 = ⟨∅, Const 0⟩` and `r2 = ⟨{y ↦ Const 1}, Const 0⟩`,
`join_bin(r1, r2)` maps `y` to `Const 1` (the second phase of the source
joins `y`'s value with `other.lookup(y)`, i.e. with itself, instead of
with `self`'s default `Const 0`), while `join_bin(r2, r1)` maps `y` to
`Top` — which is also the value the claimed pointwise join over the key
union would give in both directions. -/
theorem multiconst_join_not_commutative :
    (cexR1.join_bin cexR2).map "y" = some (ConstLat.Const 1) ∧
    (cexR2.join_bin cexR1).map "y" = some ConstLat.Top ∧
    ConstLat.join_bin (.Const 1) (.Const 0) = ConstLat.Top ∧
    cexR1.join_bin cexR2 ≠ cexR2.join_bin cexR1 := by
  refine ⟨by decide, by decide, by decide, fun h => ?_⟩
  exact absurd (congrArg (fun r => r.map "y") h) (by decide)

/-- C8: `eval(p, n)` runs `p` on the memory that maps `x` to `n` and every
other variable to `0` and returns the final value of `z` (divergence is
modelled by the fuel bound: `eval` returns `none` exactly when the
execution of `p` does).  Interpreting `z := x + 1` with input `41`
returns `42`. -/
theorem eval_from_input_memory :
    (∀ n : Int, (MemConfig.new.assign "x" n) "x" = n) ∧
    (∀ (n : Int) (v : VarName), v ≠ "x" → (MemConfig.new.assign "x" n) v = 0) ∧
    (∀ (fuel : Nat) (p : Prog) (n : Int),
      eval fuel p n =
        (eval_prog fuel p (MemConfig.new.assign "x" n)).map (fun m => m "z")) ∧
    eval 1 prog_incr 41 = some 42 := by
  refine ⟨fun n => by simp [MemConfig.assign], ?_, fun fuel p n => rfl, by
    simp [eval, eval_prog, eval_prog_atom, prog_incr, eval_aexp, x_plus_1,
      MemConfig.assign, MemConfig.new, i32_add, wrap32]⟩
  intro n v hv
  simp [MemConfig.assign, MemConfig.new, hv]

/-- C8 witness: the second part of `eval_from_input_memory` applied at the
concrete variable `q` (distinct from `x`), plus the concrete run. -/
theorem eval_from_input_memory_witness :
    (MemConfig.new.assign "x" 5) "q" = 0 ∧ eval 1 prog_incr 41 = some 42 :=
  ⟨eval_from_input_memory.2.1 5 "q" (by decide), eval_from_input_memory.2.2.2⟩

/-- C10: if the abstract environment `r` maps every variable occurring in
`a` to `Const` of that variable's value in the concrete memory `m`, then
abstract evaluation returns exactly `Const (eval_aexp a m)`.  Both sides
use the same wrapping `i32` addition and multiplication (`i32_add`,
`i32_mul`), so they agree even on wraparound. -/
theorem const_prop_eval_aexp_exact
    (a : AExp) (m : MemConfig) (r : MultiConstLat)
    (h : ∀ v : VarName, a.contains_var v = true → r.lookup v = .Const (m v)) :
    r.eval_aexp a = .Const (eval_aexp a m) := by
  induction a with
  | Num n => rfl
  | Var v =>
    have hv := h v (by simp [AExp.contains_var])
    simp [MultiConstLat.eval_aexp, eval_aexp, hv]
  | Add a1 a2 ih1 ih2 =>
    have h1 : ∀ v, a1.contains_var v = true → r.lookup v = .Const (m v) :=
      fun v hv => h v (by simp [AExp.contains_var, hv])
    have h2 : ∀ v, a2.contains_var v = true → r.lookup v = .Const (m v) :=
      fun v hv => h v (by simp [AExp.contains_var, hv])
    simp [MultiConstLat.eval_aexp, eval_aexp, ih1 h1, ih2 h2,
      ConstLat.eval_bin_op]
  | Mul a1 a2 ih1 ih2 =>
    have h1 : ∀ v, a1.contains_var v = true → r.lookup v = .Const (m v) :=
      fun v hv => h v (by simp [AExp.contains_var, hv])
    have h2 : ∀ v, a2.contains_var v = true → r.lookup v = .Const (m v) :=
      fun v hv => h v (by simp [AExp.contains_var, hv])
    simp [MultiConstLat.eval_aexp, eval_aexp, ih1 h1, ih2 h2,
      ConstLat.eval_bin_op]

/-- C10 witness: the theorem applied to `x + 1`, the memory `x = 41`, and
the abstract environment `{x ↦ Const 41}` with default `Bot`. -/
theorem const_prop_eval_aexp_exact_witness :
    MultiConstLat.eval_aexp
        ⟨fun v => if v = "x" then some (.Const 41) else none, .Bot⟩ x_plus_1 =
      .Const (eval_aexp x_plus_1 (fun v => if v = "x" then 41 else 0)) :=
  const_prop_eval_aexp_exact x_plus_1 (fun v => if v = "x" then 41 else 0)
    ⟨fun v => if v = "x" then some (.Const 41) else none, .Bot⟩ (by
      intro v hv
      simp [x_plus_1, AExp.contains_var] at hv
      subst hv
      rfl)

/-- A visit succeeds whenever the node index is in range and the node has
at least one predecessor (otherwise the source would panic on
`unwrap()`). -/
theorem mfp_visit_isSome {L : Type} [DecidableEq L] (ops : FlowOps L)
    (g : Cfg) (ann : Nat → MfpAnnot L) (n : Nat)
    (hlt : n < g.nodes.length) (hp : cfg_predecessors g n ≠ []) :
    (mfp_visit ops g ann n).isSome = true := by
  unfold mfp_visit
  cases hg : g.nodes.get? n with
  | none =>
    have := List.get?_eq_none.mp hg
    omega
  | some nd =>
    cases hps : cfg_predecessors g n with
    | nil => exact absurd hps hp
    | cons p ps =>
      dsimp only
      split <;> simp

/-- The worklist loop visits exactly the nodes of `order`, in order, and
completes, for any operations `ops` whatsoever. -/
theorem mfp_run_trace {L : Type} [DecidableEq L] (ops : FlowOps L) (g : Cfg) :
    ∀ (order : List Nat) (ann : Nat → MfpAnnot L),
      (∀ n ∈ order, n < g.nodes.length ∧ cfg_predecessors g n ≠ []) →
      (mfp_run ops g order ann).1 = order ∧
      (mfp_run ops g order ann).2.isSome = true := by
  intro order
  induction order with
  | nil => intro ann _; exact ⟨rfl, rfl⟩
  | cons n rest ih =>
    intro ann h
    have hn := h n (List.mem_cons_self n rest)
    have hv := mfp_visit_isSome ops g ann n hn.1 hn.2
    unfold mfp_run
    cases hvis : mfp_visit ops g ann n with
    | none => rw [hvis] at hv; simp at hv
    | some ann' =>
      have hrest := ih ann' (fun m hm => h m (List.mem_cons_of_mem n hm))
      simpa [hrest.1] using hrest.2

/-- Helper: filtering one in-range value out of `List.range n` leaves
`n - 1` elements. -/
theorem range_filter_ne_length (n k : Nat) :
    k < n → ((List.range n).filter (fun i => i != k)).length = n - 1 := by
  induction n with
  | zero => intro h; omega
  | succ m ih =>
    intro h
    rw [List.range_succ, List.filter_append, List.length_append]
    by_cases hk : k = m
    · subst hk
      have hself : (List.range k).filter (fun i => i != k) = List.range k := by
        apply List.filter_eq_self.mpr
        intro a ha
        have : a < k := List.mem_range.mp ha
        simp [Nat.ne_of_lt this]
      simp [hself]
    · have hkm : k < m := by omega
      have : (m != k) = true := by simp [Ne.symm hk]
      rw [ih hkm]
      simp [this]
      omega

/-- C9: the solver's worklist loop removes each non-`Init` node exactly
once and never re-inserts any node (`HashSet::union`'s return value is
discarded), so for *any* lattice operations — no monotonicity, no lattice
laws, no finite-chain condition — it processes exactly the initial
worklist (all nodes except the entry), runs for exactly
`|nodes| - 1` iterations, and completes. -/
theorem mfp_single_pass {L : Type} [DecidableEq L] (ops : FlowOps L)
    (g : Cfg) (order : List Nat)
    (hin : g.init < g.nodes.length)
    (hperm : order.Perm (mfp_worklist g))
    (hpred : ∀ n ∈ order, n < g.nodes.length ∧ cfg_predecessors g n ≠ []) :
    (mfp ops g order).1 = order ∧
    (mfp ops g order).2.isSome = true ∧
    order.length = g.nodes.length - 1 := by
  have htrace := mfp_run_trace ops g order (mfp_init_annots ops g) hpred
  refine ⟨htrace.1, htrace.2, ?_⟩
  rw [hperm.length_eq]
  exact range_filter_ne_length g.nodes.length g.init hin

/-- A lattice instance with a non-monotone transfer function, a
non-idempotent join and an infinite ascending chain, used to witness that
`mfp_single_pass` does not depend on any framework law. -/
def demo_ops : FlowOps Nat :=
  ⟨fun a b => a + b + 1, fun _ x => if x = 0 then 7 else 0, 0, 3⟩

/-- The CFG `ast_to_cfg` produces for `while 1 <= 1 do skip end`. -/
def cfg_loop : Cfg :=
  ⟨[Node.Init, Node.Branch (.LessEq (.Num 1) (.Num 1)), Node.Skip,
    Node.Terminal],
   [(0, 1, Edge.Plain), (1, 2, Edge.True), (2, 1, Edge.Plain),
    (1, 3, Edge.False)], 0⟩

/-- C9 witness: `mfp_single_pass` applied to the loop CFG and the lawless
instance `demo_ops`. -/
theorem mfp_single_pass_witness :
    (mfp demo_ops cfg_loop [1, 2, 3]).1 = [1, 2, 3] ∧
    (mfp demo_ops cfg_loop [1, 2, 3]).2.isSome = true ∧
    ([1, 2, 3] : List Nat).length = cfg_loop.nodes.length - 1 :=
  mfp_single_pass demo_ops cfg_loop [1, 2, 3] (by decide) (by decide)
    (by decide)

/-!
## Structural invariants of the lowering
-/

/-- `r` extends `g`: the lowering only appends nodes, never creates a
`Terminal` or `Init` node, and keeps the entry index. -/
def NodesExt (g r : Cfg) : Prop :=
  (∃ new, r.nodes = g.nodes ++ new ∧ Node.Terminal ∉ new ∧ Node.Init ∉ new) ∧
  r.init = g.init

/-- All edge endpoints are in range. -/
def EdgesB (g : Cfg) : Prop :=
  ∀ e ∈ g.edges, e.1 < g.nodes.length ∧ e.2.1 < g.nodes.length

/-- All loose-end sources are in range. -/
def UesB (ues : List UntargEdge) (g : Cfg) : Prop :=
  ∀ ue ∈ ues, ue.1 < g.nodes.length

theorem NodesExt.rfl_self (g : Cfg) : NodesExt g g :=
  ⟨⟨[], by simp, by simp, by simp⟩, rfl⟩

theorem NodesExt.trans {g h k : Cfg} (h1 : NodesExt g h) (h2 : NodesExt h k) :
    NodesExt g k := by
  obtain ⟨⟨n1, e1, t1, i1⟩, j1⟩ := h1
  obtain ⟨⟨n2, e2, t2, i2⟩, j2⟩ := h2
  refine ⟨⟨n1 ++ n2, by simp [e2, e1], ?_, ?_⟩, j2.trans j1⟩
  · simp only [List.mem_append]
    rintro (h | h) <;> [exact t1 h; exact t2 h]
  · simp only [List.mem_append]
    rintro (h | h) <;> [exact i1 h; exact i2 h]

theorem NodesExt.len_le {g h : Cfg} (h1 : NodesExt g h) :
    g.nodes.length ≤ h.nodes.length := by
  obtain ⟨⟨n1, e1, -, -⟩, -⟩ := h1
  simp [e1]

theorem UesB.mono {ues : List UntargEdge} {g h : Cfg}
    (hu : UesB ues g) (hn : g.nodes.length ≤ h.nodes.length) : UesB ues h :=
  fun ue hue => lt_of_lt_of_le (hu ue hue) hn

/-- The common first step of every lowering arm: append one fresh node and
wire the incoming loose ends to it. -/
theorem add_wire_step (g : Cfg) (ues : List UntargEdge) (nd : Node)
    (ht : nd ≠ Node.Terminal) (hi : nd ≠ Node.Init) :
    NodesExt g (cfg_wire ⟨g.nodes ++ [nd], g.edges, g.init⟩ ues g.nodes.length) ∧
    (EdgesB g → UesB ues g →
      EdgesB (cfg_wire ⟨g.nodes ++ [nd], g.edges, g.init⟩ ues g.nodes.length) ∧
      UesB [(g.nodes.length, Edge.Plain), (g.nodes.length, Edge.True),
            (g.nodes.length, Edge.False)]
        (cfg_wire ⟨g.nodes ++ [nd], g.edges, g.init⟩ ues g.nodes.length)) := by
  constructor
  · exact ⟨⟨[nd], rfl, by simpa using Ne.symm ht, by simpa using Ne.symm hi⟩, rfl⟩
  · intro he hu
    constructor
    · intro e hee
      simp only [cfg_wire, List.mem_append, List.mem_map] at hee
      rcases hee with h | ⟨ue, hue, rfl⟩
      · have := he e h
        simp only [cfg_wire, List.length_append, List.length_singleton]
        omega
      · have := hu ue hue
        simp only [cfg_wire, List.length_append, List.length_singleton]
        omega
    · intro ue hue
      simp only [cfg_wire, List.length_append, List.length_singleton]
      fin_cases hue <;> omega

mutual
/-- Every atom lowering extends the graph (appending non-`Terminal`,
non-`Init` nodes), preserves the entry index, and — when the incoming
graph and loose ends are in range — keeps all edges and returned loose
ends in range. -/
theorem atom_extend_inv (g : Cfg) (ues : List UntargEdge) (a : ProgAtom) :
    NodesExt g (ast_atom_to_cfg_extend g ues a).1 ∧
    (EdgesB g → UesB ues g →
      EdgesB (ast_atom_to_cfg_extend g ues a).1 ∧
      UesB (ast_atom_to_cfg_extend g ues a).2 (ast_atom_to_cfg_extend g ues a).1) := by
  cases a with
  | skip =>
    have hs := add_wire_step g ues Node.Skip (by simp) (by simp)
    rw [ast_atom_to_cfg_extend]
    refine ⟨hs.1, fun he hu => ⟨(hs.2 he hu).1, ?_⟩⟩
    intro ue hue
    have := (hs.2 he hu).2 (g.nodes.length, Edge.Plain) (by simp)
    simp only [List.mem_singleton] at hue
    subst hue
    exact this
  | assign v e0 =>
    have hs := add_wire_step g ues (Node.Assign v e0) (by simp) (by simp)
    rw [ast_atom_to_cfg_extend]
    refine ⟨hs.1, fun he hu => ⟨(hs.2 he hu).1, ?_⟩⟩
    intro ue hue
    have := (hs.2 he hu).2 (g.nodes.length, Edge.Plain) (by simp)
    simp only [List.mem_singleton] at hue
    subst hue
    exact this
  | cond b p_tt p_ff =>
    have hs := add_wire_step g ues (Node.Branch b) (by simp) (by simp)
    have h_tt := prog_extend_inv
      (cfg_wire ⟨g.nodes ++ [Node.Branch b], g.edges, g.init⟩ ues g.nodes.length)
      [(g.nodes.length, Edge.True)] p_tt
    have h_ff := prog_extend_inv
      (ast_to_cfg_extend
        (cfg_wire ⟨g.nodes ++ [Node.Branch b], g.edges, g.init⟩ ues g.nodes.length)
        [(g.nodes.length, Edge.True)] p_tt).1
      [(g.nodes.length, Edge.False)] p_ff
    rw [ast_atom_to_cfg_extend]
    refine ⟨(hs.1.trans h_tt.1).trans h_ff.1, fun he hu => ?_⟩
    have hg1 := hs.2 he hu
    have hu_tt : UesB [(g.nodes.length, Edge.True)]
        (cfg_wire ⟨g.nodes ++ [Node.Branch b], g.edges, g.init⟩ ues g.nodes.length) := by
      intro ue hue
      have := hg1.2 (g.nodes.length, Edge.True) (by simp)
      simp only [List.mem_singleton] at hue
      subst hue
      exact this
    have h1 := h_tt.2 hg1.1 hu_tt
    have hu_ff : UesB [(g.nodes.length, Edge.False)]
        (ast_to_cfg_extend
          (cfg_wire ⟨g.nodes ++ [Node.Branch b], g.edges, g.init⟩ ues g.nodes.length)
          [(g.nodes.length, Edge.True)] p_tt).1 := by
      intro ue hue
      have h0 := hg1.2 (g.nodes.length, Edge.False) (by simp)
      simp only [List.mem_singleton] at hue
      subst hue
      exact lt_of_lt_of_le h0 h_tt.1.len_le
    have h2 := h_ff.2 h1.1 hu_ff
    refine ⟨h2.1, ?_⟩
    intro ue hue
    simp only [List.mem_append] at hue
    rcases hue with h | h
    · exact lt_of_lt_of_le (h1.2 ue h) h_ff.1.len_le
    · exact h2.2 ue h
  | whileS b p =>
    have hs := add_wire_step g ues (Node.Branch b) (by simp) (by simp)
    have hp := prog_extend_inv
      (cfg_wire ⟨g.nodes ++ [Node.Branch b], g.edges, g.init⟩ ues g.nodes.length)
      [(g.nodes.length, Edge.True)] p
    rw [ast_atom_to_cfg_extend]
    constructor
    · refine NodesExt.trans (NodesExt.trans hs.1 hp.1) ?_
      exact ⟨⟨[], by simp [cfg_wire], by simp, by simp⟩, rfl⟩
    · intro he hu
      have hg1 := hs.2 he hu
      have hu_tt : UesB [(g.nodes.length, Edge.True)]
          (cfg_wire ⟨g.nodes ++ [Node.Branch b], g.edges, g.init⟩ ues g.nodes.length) := by
        intro ue hue
        have := hg1.2 (g.nodes.length, Edge.True) (by simp)
        simp only [List.mem_singleton] at hue
        subst hue
        exact this
      have h1 := hp.2 hg1.1 hu_tt
      have hslt : g.nodes.length <
          (ast_to_cfg_extend
            (cfg_wire ⟨g.nodes ++ [Node.Branch b], g.edges, g.init⟩ ues g.nodes.length)
            [(g.nodes.length, Edge.True)] p).1.nodes.length := by
        have h0 := hg1.2 (g.nodes.length, Edge.True) (by simp)
        exact lt_of_lt_of_le h0 hp.1.len_le
      constructor
      · intro e hee
        simp only [cfg_wire, List.mem_append, List.mem_map] at hee
        rcases hee with h | ⟨ue, hue, rfl⟩
        · have := h1.1 e h
          simpa [cfg_wire] using this
        · have := h1.2 ue hue
          simp only [cfg_wire]
          exact ⟨this, hslt⟩
      · intro ue hue
        simp only [List.mem_singleton] at hue
        subst hue
        simpa [cfg_wire] using hslt
termination_by sizeOf a

/-- Sequencing preserves the lowering invariants of `atom_extend_inv`. -/
theorem prog_extend_inv (g : Cfg) (ues : List UntargEdge) (ps : List ProgAtom) :
    NodesExt g (ast_to_cfg_extend g ues ps).1 ∧
    (EdgesB g → UesB ues g →
      EdgesB (ast_to_cfg_extend g ues ps).1 ∧
      UesB (ast_to_cfg_extend g ues ps).2 (ast_to_cfg_extend g ues ps).1) := by
  cases ps with
  | nil =>
    rw [ast_to_cfg_extend]
    exact ⟨NodesExt.rfl_self g, fun he hu => ⟨he, hu⟩⟩
  | cons a ps' =>
    have ha := atom_extend_inv g ues a
    have hp := prog_extend_inv (ast_atom_to_cfg_extend g ues a).1
      (ast_atom_to_cfg_extend g ues a).2 ps'
    rw [ast_to_cfg_extend]
    refine ⟨ha.1.trans hp.1, fun he hu => ?_⟩
    have h1 := ha.2 he hu
    exact hp.2 h1.1 h1.2
termination_by sizeOf ps
end

/-- C5: lowering `While(b, p)` from any graph `g` and incoming loose ends
`ues` creates exactly one new `Branch(b)` node `s` (at the fresh index
`g.nodes.length`), wires every incoming loose end `(u, ℓ)` to `s` as the
edge `u → s` labelled `ℓ`, lowers the body from the single loose end
`(s, True)`, wires every loose end `(u, ℓ)` the body returns back to `s`
as `u → s` labelled `ℓ`, and returns exactly `[(s, False)]`. -/
theorem while_lowering (g : Cfg) (ues : List UntargEdge) (b : BExp)
    (p : Prog) :
    ast_atom_to_cfg_extend g ues (ProgAtom.whileS b p) =
      (cfg_wire
        (ast_to_cfg_extend
          (cfg_wire ⟨g.nodes ++ [Node.Branch b], g.edges, g.init⟩ ues
            g.nodes.length)
          [(g.nodes.length, Edge.True)] p).1
        (ast_to_cfg_extend
          (cfg_wire ⟨g.nodes ++ [Node.Branch b], g.edges, g.init⟩ ues
            g.nodes.length)
          [(g.nodes.length, Edge.True)] p).2
        g.nodes.length,
       [(g.nodes.length, Edge.False)]) ∧
    (ast_atom_to_cfg_extend g ues (ProgAtom.whileS b p)).1.nodes.getD
        g.nodes.length Node.Init = Node.Branch b ∧
    (cfg_wire ⟨g.nodes ++ [Node.Branch b], g.edges, g.init⟩ ues
        g.nodes.length).edges =
      g.edges ++ ues.map (fun ue => (ue.1, g.nodes.length, ue.2)) := by
  have hdef : ast_atom_to_cfg_extend g ues (ProgAtom.whileS b p) =
      (cfg_wire
        (ast_to_cfg_extend
          (cfg_wire ⟨g.nodes ++ [Node.Branch b], g.edges, g.init⟩ ues
            g.nodes.length)
          [(g.nodes.length, Edge.True)] p).1
        (ast_to_cfg_extend
          (cfg_wire ⟨g.nodes ++ [Node.Branch b], g.edges, g.init⟩ ues
            g.nodes.length)
          [(g.nodes.length, Edge.True)] p).2
        g.nodes.length,
       [(g.nodes.length, Edge.False)]) := by
    rw [ast_atom_to_cfg_extend]
  refine ⟨hdef, ?_, rfl⟩
  have hp := prog_extend_inv
    (cfg_wire ⟨g.nodes ++ [Node.Branch b], g.edges, g.init⟩ ues
      g.nodes.length)
    [(g.nodes.length, Edge.True)] p
  obtain ⟨⟨new, hnodes, -, -⟩, -⟩ := hp.1
  rw [hdef]
  show (ast_to_cfg_extend _ _ p).1.nodes.getD g.nodes.length Node.Init =
    Node.Branch b
  rw [hnodes]
  show ((g.nodes ++ [Node.Branch b]) ++ new).getD g.nodes.length Node.Init =
    Node.Branch b
  rw [List.getD_append _ _ _ _ (by simp),
    List.getD_append_right _ _ _ _ (by simp)]
  simp

/-- The boundedness facts of the lowering, instantiated at the outermost
call of `ast_to_cfg`. -/
theorem lower_raw_inv (p : Prog) :
    NodesExt ⟨[Node.Init], [], 0⟩ (lower_raw p).1 ∧
    EdgesB (lower_raw p).1 ∧ UesB (lower_raw p).2 (lower_raw p).1 := by
  have hinv := prog_extend_inv ⟨[Node.Init], [], 0⟩ [(0, Edge.Plain)] p
  have hb := hinv.2 (fun e he => by simp at he)
    (fun ue hue => by
      simp only [List.mem_singleton] at hue
      subst hue
      simp)
  exact ⟨hinv.1, hb.1, hb.2⟩

/-- No `Terminal` node exists before the final step of `ast_to_cfg`. -/
theorem lower_raw_no_terminal (p : Prog) :
    Node.Terminal ∉ (lower_raw p).1.nodes := by
  obtain ⟨⟨new, hnodes, hterm, -⟩, -⟩ := (lower_raw_inv p).1
  rw [hnodes]
  simp only [List.mem_append, List.mem_singleton]
  rintro (h | h)
  · simp at h
  · exact hterm h

/-- Unfolding of `ast_to_cfg` through its match on the remaining
non-`Plain` loose ends. -/
theorem ast_to_cfg_eq (p : Prog) :
    ast_to_cfg p =
      (if relevant_ends p = [] then (lower_raw p).1
       else cfg_wire ⟨(lower_raw p).1.nodes ++ [Node.Terminal],
          (lower_raw p).1.edges, (lower_raw p).1.init⟩ (relevant_ends p)
          (lower_raw p).1.nodes.length) := by
  unfold ast_to_cfg
  split
  · rename_i heq
    rw [if_pos heq]
  · rename_i u rest heq
    rw [if_neg (by rw [heq]; simp), heq]

/-- C6: `ast_to_cfg p` contains a `Terminal` node iff a loose end labelled
`True` or `False` remained after lowering the outermost program; when
present it is unique (`count = 1`), no edge leaves it (no edge's source
index holds the `Terminal` payload), and the edges entering the fresh
terminal index are exactly the non-`Plain` loose ends (`Plain` ends are
discarded). -/
theorem terminal_node_char (p : Prog) :
    (Node.Terminal ∈ (ast_to_cfg p).nodes ↔ relevant_ends p ≠ []) ∧
    (ast_to_cfg p).nodes.count Node.Terminal =
      (if relevant_ends p = [] then 0 else 1) ∧
    ((ast_to_cfg p).edges.filter
        (fun e => (ast_to_cfg p).nodes.getD e.1 Node.Init == Node.Terminal))
      = [] ∧
    ((ast_to_cfg p).edges.filter
        (fun e => e.2.1 == (lower_raw p).1.nodes.length)) =
      (relevant_ends p).map
        (fun ue => (ue.1, (lower_raw p).1.nodes.length, ue.2)) := by
  have hTnot := lower_raw_no_terminal p
  have hEB := (lower_raw_inv p).2.1
  have hUB := (lower_raw_inv p).2.2
  have hrelB : UesB (relevant_ends p) (lower_raw p).1 :=
    fun ue hue => hUB ue (List.mem_of_mem_filter hue)
  have hnoterm_getD : ∀ i, i < (lower_raw p).1.nodes.length →
      ¬ ((lower_raw p).1.nodes.getD i Node.Init = Node.Terminal) := by
    intro i hi hbad
    have hmem : (lower_raw p).1.nodes.getD i Node.Init ∈
        (lower_raw p).1.nodes := by
      rw [List.getD_eq_getElem _ _ hi]
      exact List.getElem_mem _
    rw [hbad] at hmem
    exact hTnot hmem
  rw [ast_to_cfg_eq p]
  by_cases hrel : relevant_ends p = []
  · rw [if_pos hrel, hrel]
    refine ⟨by simp [hTnot], by simp [List.count_eq_zero.mpr hTnot], ?_, ?_⟩
    · apply List.filter_eq_nil_iff.mpr
      intro e he
      have hlt := (hEB e he).1
      simpa using hnoterm_getD e.1 hlt
    · simp only [List.map_nil]
      apply List.filter_eq_nil_iff.mpr
      intro e he
      have hlt := (hEB e he).2
      simp only [beq_iff_eq]
      omega
  · rw [if_neg hrel]
    simp only [cfg_wire]
    refine ⟨by simp [hrel], ?_, ?_, ?_⟩
    · simp only [List.count_append, List.count_eq_zero.mpr hTnot, if_neg hrel]
      simp
    · rw [List.filter_append]
      have h1 : ((lower_raw p).1.edges.filter
          (fun e => ((lower_raw p).1.nodes ++ [Node.Terminal]).getD e.1
            Node.Init == Node.Terminal)) = [] := by
        apply List.filter_eq_nil_iff.mpr
        intro e he
        have hlt := (hEB e he).1
        rw [List.getD_append _ _ _ _ hlt]
        simpa using hnoterm_getD e.1 hlt
      have h2 : (((relevant_ends p).map
          (fun ue => (ue.1, (lower_raw p).1.nodes.length, ue.2))).filter
          (fun e => ((lower_raw p).1.nodes ++ [Node.Terminal]).getD e.1
            Node.Init == Node.Terminal)) = [] := by
        apply List.filter_eq_nil_iff.mpr
        intro e he
        simp only [List.mem_map] at he
        obtain ⟨ue, hue, rfl⟩ := he
        have hlt : ue.1 < (lower_raw p).1.nodes.length := hrelB ue hue
        rw [List.getD_append _ _ _ _ hlt]
        simpa using hnoterm_getD ue.1 hlt
      rw [h1, h2]
      rfl
    · rw [List.filter_append]
      have h1 : ((lower_raw p).1.edges.filter
          (fun e => e.2.1 == (lower_raw p).1.nodes.length)) = [] := by
        apply List.filter_eq_nil_iff.mpr
        intro e he
        have hlt := (hEB e he).2
        simp only [beq_iff_eq]
        omega
      have h2 : (((relevant_ends p).map
          (fun ue => (ue.1, (lower_raw p).1.nodes.length, ue.2))).filter
          (fun e => e.2.1 == (lower_raw p).1.nodes.length)) =
          ((relevant_ends p).map
            (fun ue => (ue.1, (lower_raw p).1.nodes.length, ue.2))) := by
        apply List.filter_eq_self.mpr
        intro e he
        simp only [List.mem_map] at he
        obtain ⟨ue, -, rfl⟩ := he
        simp
      rw [h1, h2]
      rfl

/-!
## Parser (`src/parser.rs`) and pretty-printers (`Display` impls)

The nom combinators are modelled over `List Char`; a parser returns
`none` on failure (nom's `Err`) and `some (rest, value)` on success.
The mutually recursive grammar functions carry a fuel parameter (the
source's `bexp → and → bexp` path is left-recursive and diverges on the
inputs that reach it; fuel makes the embedding total).  All concrete
evaluations below use fuel large enough that the bound is never hit on a
successful or failing nom run.
-/

def is_multispace (c : Char) : Bool :=
  c = ' ' || c = '\t' || c = '\n' || c = '\r'

def is_alphanum (c : Char) : Bool := c.isAlpha || c.isDigit

def tag_p : List Char → List Char → Option (List Char × Unit)
  | [], s => some (s, ())
  | _ :: _, [] => none
  | c :: t', d :: s' => if c = d then tag_p t' s' else none

def multispace0 (s : List Char) : Option (List Char × Unit) :=
  some (s.dropWhile is_multispace, ())

def bin_op_p (op : List Char) (s : List Char) : Option (List Char × Unit) :=
  match multispace0 s with
  | some (s1, _) =>
    match tag_p op s1 with
    | none => none
    | some (s2, _) => multispace0 s2
  | none => none

def digit1 (s : List Char) : Option (List Char × List Char) :=
  match s.takeWhile Char.isDigit with
  | [] => none
  | d => some (s.drop d.length, d)

def alpha1 (s : List Char) : Option (List Char × List Char) :=
  match s.takeWhile Char.isAlpha with
  | [] => none
  | d => some (s.drop d.length, d)

def chars_to_nat (l : List Char) : Nat :=
  l.foldl (fun acc c => 10 * acc + (c.toNat - '0'.toNat)) 0

def sep_list1_loop {α : Type} (fuel : Nat)
    (sep : List Char → Option (List Char × Unit))
    (item : List Char → Option (List Char × α)) (acc : List α)
    (s : List Char) : Option (List Char × List α) :=
  match fuel with
  | 0 => none
  | f + 1 =>
    match sep s with
    | none => some (s, acc)
    | some (s1, _) =>
      match item s1 with
      | none => some (s, acc)
      | some (s2, a) => sep_list1_loop f sep item (acc ++ [a]) s2

def sep_list1 {α : Type} (fuel : Nat)
    (sep : List Char → Option (List Char × Unit))
    (item : List Char → Option (List Char × α)) (s : List Char) :
    Option (List Char × List α) :=
  match item s with
  | none => none
  | some (s1, a) => sep_list1_loop fuel sep item [a] s1

def num_neg_p (s : List Char) : Option (List Char × AExp) :=
  match tag_p ['-'] s with
  | none => none
  | some (s1, _) =>
    match digit1 s1 with
    | none => none
    | some (s2, d) => some (s2, AExp.Num (-(chars_to_nat d : Int)))

def num_nonneg_p (s : List Char) : Option (List Char × AExp) :=
  match digit1 s with
  | none => none
  | some (s1, d) => some (s1, AExp.Num (chars_to_nat d : Int))

def varname_p (s : List Char) : Option (List Char × VarName) :=
  match alpha1 s with
  | none => none
  | some (s1, v) => some (s1, String.mk v)

def var_p (s : List Char) : Option (List Char × AExp) :=
  match varname_p s with
  | none => none
  | some (s1, v) => some (s1, AExp.Var v)

mutual
def aexp_p (fuel : Nat) (s : List Char) : Option (List Char × AExp) :=
  match fuel with
  | 0 => none
  | f + 1 =>
    match num_neg_p s with
    | some r => some r
    | none => add_p f s
termination_by fuel

def add_p (fuel : Nat) (s : List Char) : Option (List Char × AExp) :=
  match fuel with
  | 0 => none
  | f + 1 =>
    match sep_list1 fuel (bin_op_p ['+']) (mul_p f) s with
    | none => none
    | some (s1, l) =>
      match l with
      | [] => none
      | hd :: tl => some (s1, tl.foldl (fun acc x => AExp.Add acc x) hd)
termination_by fuel

def mul_p (fuel : Nat) (s : List Char) : Option (List Char × AExp) :=
  match fuel with
  | 0 => none
  | f + 1 =>
    match sep_list1 fuel (bin_op_p ['*']) (aexp_atom_p f) s with
    | none => none
    | some (s1, l) =>
      match l with
      | [] => none
      | hd :: tl => some (s1, tl.foldl (fun acc x => AExp.Mul acc x) hd)
termination_by fuel

def aexp_atom_p (fuel : Nat) (s : List Char) : Option (List Char × AExp) :=
  match fuel with
  | 0 => none
  | f + 1 =>
    match num_nonneg_p s with
    | some r => some r
    | none =>
      match var_p s with
      | some r => some r
      | none => aexp_parens_p f s
termination_by fuel

def aexp_parens_p (fuel : Nat) (s : List Char) : Option (List Char × AExp) :=
  match fuel with
  | 0 => none
  | f + 1 =>
    match tag_p ['('] s with
    | none => none
    | some (s1, _) =>
      match multispace0 s1 with
      | some (s2, _) =>
        match aexp_p f s2 with
        | none => none
        | some (s3, a) =>
          match multispace0 s3 with
          | some (s4, _) =>
            match tag_p [')'] s4 with
            | none => none
            | some (s5, _) => some (s5, a)
          | none => none
      | none => none
termination_by fuel
end

example : aexp_p 50 "x <= 0".toList = some (" <= 0".toList, AExp.Var "x") := by
  simp [aexp_p, add_p, mul_p, aexp_atom_p, aexp_parens_p, num_neg_p,
    num_nonneg_p, var_p, varname_p, alpha1, digit1, tag_p, sep_list1,
    sep_list1_loop, bin_op_p, multispace0, is_multispace, chars_to_nat]

def keyword_p (k : List Char) (s : List Char) : Option (List Char × Unit) :=
  match tag_p k s with
  | none => none
  | some (s1, _) =>
    match s1 with
    | [] => some (s1, ())
    | c :: _ => if is_alphanum c then none else some (s1, ())

def multispace1 (s : List Char) : Option (List Char × Unit) :=
  match s.takeWhile is_multispace with
  | [] => none
  | w => some (s.drop w.length, ())

def lesseq_p (fuel : Nat) (s : List Char) : Option (List Char × BExp) :=
  match aexp_p fuel s with
  | none => none
  | some (s1, left) =>
    match bin_op_p ['<', '='] s1 with
    | none => none
    | some (s2, _) =>
      match aexp_p fuel s2 with
      | none => none
      | some (s3, right) => some (s3, BExp.LessEq left right)

mutual
def bexp_p (fuel : Nat) (s : List Char) : Option (List Char × BExp) :=
  match fuel with
  | 0 => none
  | f + 1 =>
    match lesseq_p f s with
    | some r => some r
    | none =>
      match neg_p f s with
      | some r => some r
      | none =>
        match and_p f s with
        | some r => some r
        | none => or_p f s
termination_by fuel

def neg_p (fuel : Nat) (s : List Char) : Option (List Char × BExp) :=
  match fuel with
  | 0 => none
  | f + 1 =>
    match tag_p ['!'] s with
    | none => none
    | some (s1, _) =>
      match bexp_p f s1 with
      | none => none
      | some (s2, b) => some (s2, BExp.Neg b)
termination_by fuel

def and_p (fuel : Nat) (s : List Char) : Option (List Char × BExp) :=
  match fuel with
  | 0 => none
  | f + 1 =>
    match bexp_p f s with
    | none => none
    | some (s1, left) =>
      match bin_op_p ['&', '&'] s1 with
      | none => none
      | some (s2, _) =>
        match bexp_p f s2 with
        | none => none
        | some (s3, right) => some (s3, BExp.And left right)
termination_by fuel

def or_p (fuel : Nat) (s : List Char) : Option (List Char × BExp) :=
  match fuel with
  | 0 => none
  | f + 1 =>
    match bexp_p f s with
    | none => none
    | some (s1, left) =>
      match bin_op_p ['|', '|'] s1 with
      | none => none
      | some (s2, _) =>
        match bexp_p f s2 with
        | none => none
        | some (s3, right) => some (s3, BExp.And left right)
termination_by fuel
end

def skip_p (s : List Char) : Option (List Char × ProgAtom) :=
  match keyword_p "skip".toList s with
  | none => none
  | some (s1, _) => some (s1, ProgAtom.skip)

def assign_p (fuel : Nat) (s : List Char) : Option (List Char × ProgAtom) :=
  match varname_p s with
  | none => none
  | some (s1, v) =>
    match bin_op_p [':', '='] s1 with
    | none => none
    | some (s2, _) =>
      match aexp_p fuel s2 with
      | none => none
      | some (s3, a) => some (s3, ProgAtom.assign v a)

mutual
def prog_p (fuel : Nat) (s : List Char) : Option (List Char × Prog) :=
  match fuel with
  | 0 => none
  | f + 1 => sep_list1 fuel (bin_op_p [';']) (prog_atom_p f) s
termination_by fuel

def prog_atom_p (fuel : Nat) (s : List Char) : Option (List Char × ProgAtom) :=
  match fuel with
  | 0 => none
  | f + 1 =>
    match skip_p s with
    | some r => some r
    | none =>
      match assign_p fuel s with
      | some r => some r
      | none =>
        match cond_p f s with
        | some r => some r
        | none => wwhile_p f s
termination_by fuel

def cond_p (fuel : Nat) (s : List Char) : Option (List Char × ProgAtom) :=
  match fuel with
  | 0 => none
  | f + 1 =>
    match keyword_p "if".toList s with
    | none => none
    | some (s1, _) =>
      match multispace1 s1 with
      | none => none
      | some (s2, _) =>
        match bexp_p fuel s2 with
        | none => none
        | some (s3, b) =>
          match multispace1 s3 with
          | none => none
          | some (s4, _) =>
            match keyword_p "then".toList s4 with
            | none => none
            | some (s5, _) =>
              match multispace1 s5 with
              | none => none
              | some (s6, _) =>
                match prog_p f s6 with
                | none => none
                | some (s7, p_t) =>
                  match multispace1 s7 with
                  | none => none
                  | some (s8, _) =>
                    match keyword_p "else".toList s8 with
                    | none => none
                    | some (s9, _) =>
                      match multispace1 s9 with
                      | none => none
                      | some (s10, _) =>
                        match prog_p f s10 with
                        | none => none
                        | some (s11, p_f) =>
                          match multispace1 s11 with
                          | none => none
                          | some (s12, _) =>
                            match keyword_p "end".toList s12 with
                            | none => none
                            | some (s13, _) =>
                              some (s13, ProgAtom.cond b p_t p_f)
termination_by fuel

def wwhile_p (fuel : Nat) (s : List Char) : Option (List Char × ProgAtom) :=
  match fuel with
  | 0 => none
  | f + 1 =>
    match keyword_p "while".toList s with
    | none => none
    | some (s1, _) =>
      match multispace1 s1 with
      | none => none
      | some (s2, _) =>
        match bexp_p fuel s2 with
        | none => none
        | some (s3, b) =>
          match multispace1 s3 with
          | none => none
          | some (s4, _) =>
            match keyword_p "do".toList s4 with
            | none => none
            | some (s5, _) =>
              match multispace1 s5 with
              | none => none
              | some (s6, _) =>
                match prog_p f s6 with
                | none => none
                | some (s7, p) =>
                  match multispace1 s7 with
                  | none => none
                  | some (s8, _) =>
                    match keyword_p "end".toList s8 with
                    | none => none
                    | some (s9, _) => some (s9, ProgAtom.whileS b p)
termination_by fuel
end

def strip_comments : List Char → Bool → List Char
  | [], _ => []
  | c :: cs, in_comment =>
    if c = '\n' then c :: strip_comments cs false
    else if in_comment then strip_comments cs true
    else if c = '#' then strip_comments cs true
    else c :: strip_comments cs false

def trim_ws (s : List Char) : List Char :=
  ((s.dropWhile Char.isWhitespace).reverse.dropWhile Char.isWhitespace).reverse

def parse_p (fuel : Nat) (s : List Char) : Option Prog :=
  let s1 := trim_ws (strip_comments s false)
  match prog_p fuel s1 with
  | none => none
  | some (rest, p) => if rest = [] then some p else none

def int_chars (i : Int) : List Char :=
  if i < 0 then '-' :: Nat.toDigits 10 i.natAbs else Nat.toDigits 10 i.natAbs

mutual
def aexp_fmt : AExp → List Char
  | .Num n => int_chars n
  | .Var v => v.toList
  | .Add l r => aexp_fmt l ++ [' ', '+', ' '] ++ aexp_fmt r
  | .Mul l r => aexp_fmt_parens l ++ ['*'] ++ aexp_fmt_parens r

def aexp_fmt_parens : AExp → List Char
  | .Num n => int_chars n
  | .Var v => v.toList
  | .Add l r => ['('] ++ aexp_fmt l ++ [' ', '+', ' '] ++ aexp_fmt r ++ [')']
  | .Mul l r => aexp_fmt l ++ ['*'] ++ aexp_fmt r
end

def bexp_fmt : BExp → List Char
  | .LessEq l r => aexp_fmt l ++ [' ', '<', '=', ' '] ++ aexp_fmt r
  | .Neg b => ['!'] ++ bexp_fmt b
  | .And l r => bexp_fmt l ++ [' ', '&', '&', ' '] ++ bexp_fmt r
  | .Or l r => bexp_fmt l ++ [' ', '|', '|', ' '] ++ bexp_fmt r

mutual
def prog_atom_fmt : ProgAtom → List Char
  | .skip => "skip".toList
  | .assign v a => v.toList ++ [' ', ':', '=', ' '] ++ aexp_fmt a
  | .cond b p1 p2 =>
    "if ".toList ++ bexp_fmt b ++ " then ".toList ++ prog_fmt p1 ++
      " else ".toList ++ prog_fmt p2 ++ " end".toList
  | .whileS b p =>
    "while ".toList ++ bexp_fmt b ++ " do ".toList ++ prog_fmt p ++
      " end".toList
termination_by a => sizeOf a

def prog_fmt : List ProgAtom → List Char
  | [] => []
  | [a] => prog_atom_fmt a
  | a :: a' :: as => prog_atom_fmt a ++ [';', ' '] ++ prog_fmt (a' :: as)
termination_by ps => sizeOf ps
end

def prog_or : Prog :=
  [.whileS (.Or (.LessEq (.Var "x") (.Num 0)) (.LessEq (.Var "x") (.Num 1)))
    [.skip]]


set_option maxHeartbeats 2000000 in
/-- C7 (counter-evidence): the round trip fails on a program containing
`Or`.  Printing `prog_or` yields `while x <= 0 || x <= 1 do skip end`, and
parsing that string back fails (returns an error) rather than yielding
`prog_or`: `bexp` tries `lesseq` first, which succeeds on `x <= 0`, so the
`||` is never consumed and the `do` keyword is not found.  Moreover the
`or` combinator itself — in the position where it does succeed — builds
`And(left, right)`, not `Or` (src/parser.rs:203), so no input can ever
parse to an `Or` node. -/
theorem parse_print_or_fails :
    prog_fmt prog_or = "while x <= 0 || x <= 1 do skip end".toList ∧
    parse_p 60 (prog_fmt prog_or) = none ∧
    or_p 60 "x <= 0 || x <= 1".toList =
      some ([], BExp.And (.LessEq (.Var "x") (.Num 0))
        (.LessEq (.Var "x") (.Num 1))) ∧
    bexp_p 60 "x <= 0 || x <= 1".toList =
      some (" || x <= 1".toList, .LessEq (.Var "x") (.Num 0)) := by
  have hfmt : prog_fmt prog_or = "while x <= 0 || x <= 1 do skip end".toList := by
    simp [prog_or, prog_fmt, prog_atom_fmt, bexp_fmt, aexp_fmt, int_chars,
      Nat.toDigits, Nat.toDigitsCore, Nat.digitChar]
  refine ⟨hfmt, ?_, ?_, ?_⟩
  · rw [hfmt]
    simp [parse_p, strip_comments, trim_ws, prog_p, prog_atom_p, skip_p,
      assign_p, cond_p, wwhile_p, keyword_p, multispace1, bexp_p, lesseq_p,
      neg_p, and_p, or_p, aexp_p, add_p, mul_p, aexp_atom_p, aexp_parens_p,
      num_neg_p, num_nonneg_p, var_p, varname_p, alpha1, digit1, tag_p,
      sep_list1, sep_list1_loop, bin_op_p, multispace0, is_multispace,
      is_alphanum, chars_to_nat]
  · simp [bexp_p, lesseq_p, neg_p, and_p, or_p, aexp_p, add_p, mul_p,
      aexp_atom_p, aexp_parens_p, num_neg_p, num_nonneg_p, var_p, varname_p,
      alpha1, digit1, tag_p, sep_list1, sep_list1_loop, bin_op_p,
      multispace0, is_multispace, is_alphanum, chars_to_nat]
  · simp [bexp_p, lesseq_p, neg_p, and_p, or_p, aexp_p, add_p, mul_p,
      aexp_atom_p, aexp_parens_p, num_neg_p, num_nonneg_p, var_p, varname_p,
      alpha1, digit1, tag_p, sep_list1, sep_list1_loop, bin_op_p,
      multispace0, is_multispace, is_alphanum, chars_to_nat]

/-- The lowering never moves the entry index: `ast_to_cfg` always returns
a CFG whose entry is node 0, the `Init` node created first. -/
theorem ast_to_cfg_init (p : Prog) : (ast_to_cfg p).init = 0 := by
  have h0 : (lower_raw p).1.init = 0 := (lower_raw_inv p).1.2
  rw [ast_to_cfg_eq]
  split
  · exact h0
  · simpa [cfg_wire] using h0

/-- C4 (counter-evidence): for the available-expressions analysis the
solver initializes the post-annotation of the non-entry node 1 (the
`Assign y := x*x` node of `y := x*x; while y <= 10 do y := y+1 end`) with
`∅` — `ExpSetLat::init()` and `init_start()` are both the empty set — and
not with the universal set of arithmetic subexpressions occurring in the
program, which contains `x*x` and is therefore non-empty. -/
theorem avail_mfp_seeds_empty :
    (ast_to_cfg prog_sq_loop).init = 0 ∧
    mfp_init_annots avail_ops (ast_to_cfg prog_sq_loop) 1 = ⟨∅, ∅⟩ ∧
    AExp.Mul (.Var "x") (.Var "x") ∈ prog_sub_aexps_spec prog_sq_loop ∧
    (∅ : Finset AExp) ≠ prog_sub_aexps_spec prog_sq_loop := by
  have hinit := ast_to_cfg_init prog_sq_loop
  have hmem : AExp.Mul (.Var "x") (.Var "x") ∈
      prog_sub_aexps_spec prog_sq_loop := by
    simp [prog_sub_aexps_spec, prog_atom_sub_aexps_spec, prog_sq_loop,
      AExp.sub_aexps, BExp.sub_aexps]
  exact ⟨hinit, by simp [mfp_init_annots, hinit]; rfl, hmem,
    (Finset.ne_empty_of_mem hmem).symm⟩
